import Mathlib

set_option maxRecDepth 8192

/-!
Verification of the BitTorrent CLI client (src/) against its specification.

The development shallowly embeds the Python sources as executable Lean
functions over byte lists (a byte is a `Nat` below 256) and proves or
refutes the frozen claims about them.  Machine integers are modelled as
`Nat`/`Int` with explicit reductions where the code wraps.
-/

namespace BitTorrentCli

/-- Bytes are naturals; the Python sources manipulate `bytes` objects. -/
abbrev Bytes := List Nat

/-! ## SHA-1 (hashlib.sha1, used by utils.sha1_hash)

The client calls `hashlib.sha1(data).digest()` through `utils.sha1_hash`.
We embed SHA-1 itself (FIPS 180-1) so that hash comparisons in the code
can be evaluated on concrete inputs. -/

/-- Reduce to a 32-bit word, as hashlib's internal arithmetic does. -/
def w32 (x : Nat) : Nat := x % 4294967296

/-- Rotate a 32-bit word left by `k` bits. -/
def rotl (k x : Nat) : Nat := w32 (x <<< k) ||| (x >>> (32 - k))

/-- Big-endian 4-byte encoding of a 32-bit word. -/
def be32 (x : Nat) : Bytes :=
  [x / 16777216 % 256, x / 65536 % 256, x / 256 % 256, x % 256]

/-- Big-endian 8-byte encoding of a 64-bit value (the padded bit length). -/
def be64 (x : Nat) : Bytes :=
  [x / 72057594037927936 % 256, x / 281474976710656 % 256,
   x / 1099511627776 % 256, x / 4294967296 % 256,
   x / 16777216 % 256, x / 65536 % 256, x / 256 % 256, x % 256]

/-- SHA-1 message padding: append 0x80, zeros to 56 mod 64, then the
bit length as 8 big-endian bytes. -/
def sha1Pad (msg : Bytes) : Bytes :=
  msg ++ [128] ++ List.replicate ((119 - msg.length % 64) % 64) 0 ++ be64 (8 * msg.length)

/-- Group a 64-byte chunk into 16 big-endian 32-bit words. -/
def toWords : Bytes → List Nat
  | b0 :: b1 :: b2 :: b3 :: rest => (((b0 * 256 + b1) * 256 + b2) * 256 + b3) :: toWords rest
  | _ => []

/-- Extend the 16 chunk words, appending `n` schedule words. -/
def sha1Extend (w : List Nat) : Nat → List Nat
  | 0 => w
  | n + 1 =>
    let l := w.length
    let nw := rotl 1 ((w.getD (l - 3) 0) ^^^ (w.getD (l - 8) 0) ^^^
                      (w.getD (l - 14) 0) ^^^ (w.getD (l - 16) 0))
    sha1Extend (w ++ [nw]) n

/-- The SHA-1 round function for round `i`. -/
def sha1F (i b c d : Nat) : Nat :=
  if i < 20 then (b &&& c) ||| ((b ^^^ 4294967295) &&& d)
  else if i < 40 then b ^^^ c ^^^ d
  else if i < 60 then (b &&& c) ||| (b &&& d) ||| (c &&& d)
  else b ^^^ c ^^^ d

/-- The SHA-1 round constant for round `i`. -/
def sha1K (i : Nat) : Nat :=
  if i < 20 then 1518500249
  else if i < 40 then 1859775393
  else if i < 60 then 2400959708
  else 3395469782

/-- One SHA-1 round step on the five-word working state. -/
def sha1Step (w : List Nat) (s : Nat × Nat × Nat × Nat × Nat) (i : Nat) :
    Nat × Nat × Nat × Nat × Nat :=
  match s with
  | (a, b, c, d, e) =>
    (w32 (rotl 5 a + sha1F i b c d + e + sha1K i + w.getD i 0), a, rotl 30 b, c, d)

/-- Process one 64-byte chunk, updating the running hash state. -/
def sha1Chunk (hs : Nat × Nat × Nat × Nat × Nat) (chunk : Bytes) :
    Nat × Nat × Nat × Nat × Nat :=
  let w := sha1Extend (toWords chunk) 64
  match hs, List.foldl (sha1Step w) hs (List.range 80) with
  | (h0, h1, h2, h3, h4), (a, b, c, d, e) =>
    (w32 (h0 + a), w32 (h1 + b), w32 (h2 + c), w32 (h3 + d), w32 (h4 + e))

/-- Process `n` chunks of 64 bytes from the padded message. -/
def sha1Chunks : Nat → (Nat × Nat × Nat × Nat × Nat) → Bytes → Nat × Nat × Nat × Nat × Nat
  | 0, hs, _ => hs
  | n + 1, hs, msg => sha1Chunks n (sha1Chunk hs (msg.take 64)) (msg.drop 64)

/-- SHA-1 digest of a byte string, as `utils.sha1_hash` returns it. -/
def sha1_hash (msg : Bytes) : Bytes :=
  let padded := sha1Pad msg
  match sha1Chunks (padded.length / 64) (1732584193, 4023233417, 2562383102, 271733878, 3285377520) padded with
  | (h0, h1, h2, h3, h4) => be32 h0 ++ be32 h1 ++ be32 h2 ++ be32 h3 ++ be32 h4

/-! ## Small association-list and set helpers

Python dictionaries and sets as used by the manager classes: assignment
replaces the entry for an existing key and otherwise appends; `set.add`
appends when absent; `set.remove`/`discard` drops the element. -/

/-- Dictionary assignment `d[k] = v`. -/
def aset {κ α : Type} [DecidableEq κ] : List (κ × α) → κ → α → List (κ × α)
  | [], k, v => [(k, v)]
  | (k', v') :: rest, k, v =>
    if k' = k then (k, v) :: rest else (k', v') :: aset rest k v

/-- Dictionary lookup `d[k]` / `d.get(k)`. -/
def aget {κ α : Type} [DecidableEq κ] : List (κ × α) → κ → Option α
  | [], _ => none
  | (k', v') :: rest, k => if k' = k then some v' else aget rest k

/-- Dictionary deletion `del d[k]` (no-op when the key is absent, matching
the guarded deletes in the source). -/
def adel {κ α : Type} [DecidableEq κ] : List (κ × α) → κ → List (κ × α)
  | [], _ => []
  | (k', v') :: rest, k => if k' = k then rest else (k', v') :: adel rest k

/-- Set insertion `s.add(x)`. -/
def sadd (l : List Nat) (x : Nat) : List Nat := if x ∈ l then l else l ++ [x]

/-- Set removal `s.remove(x)` under an `x in s` guard. -/
def sdel (l : List Nat) (x : Nat) : List Nat := l.filter (fun y => y ≠ x)

/-- Python slice `data[a:b]` on a byte string. -/
def bslice (l : Bytes) (a b : Nat) : Bytes := (l.drop a).take (b - a)

/-! ## Torrent metadata (src/torrent.py, src/torrent_new.py)

The fields the piece engine dereferences: the list of expected 20-byte
piece hashes (`pieces` in torrent.py, `piece_hashes` in torrent_new.py,
both the 20-byte chunks of the metainfo `pieces` string, with
`num_pieces = len(...)`), the nominal piece length and the total length.
Lengths are Python integers, embedded as `Int`. -/

structure Torrent where
  pieceHashes : List Bytes
  pieceLength : Int
  totalLength : Int

/-- Number of pieces: `len(self.pieces)` in torrent.py. -/
def Torrent.num_pieces (t : Torrent) : Nat := t.pieceHashes.length

/-- Size of a piece, from `Torrent.piece_size` (src/torrent.py lines 83-87). -/
def Torrent.piece_size (t : Torrent) (index : Nat) : Int :=
  if (index : Int) < (t.num_pieces : Int) - 1 then t.pieceLength
  else t.totalLength - ((t.num_pieces : Int) - 1) * t.pieceLength

/-- The wire block size constant `BLOCK_SIZE` (src/utils.py). -/
def BLOCK_SIZE : Nat := 16384

/-! Attribute tables of the classes the piece engine is wired with.
Every construction of this `PieceManager` (client.py line 31,
client_old.py line 31, enhanced_client.py line 37) supplies torrent.py's
`Torrent` and file_manager.py's `FileManager`; Python attribute lookups on
those instances resolve against the names below and raise
`AttributeError` for any other name. -/

/-- Attributes of torrent.py's `Torrent`: the instance attributes assigned
by `__init__` (lines 20-72) and the methods of the class body.  The hash
list is named `pieces`; there is no `piece_hashes`. -/
def torrentAttrNames : List String :=
  ["info", "info_hash", "announce", "announce_list", "piece_length",
   "pieces", "num_pieces", "files", "total_length", "name",
   "get_piece_hash", "piece_size", "verify_piece"]

/-- Attributes of file_manager.py's `FileManager`: instance attributes
assigned by `__init__` (lines 7-12) and the class's methods.  There is no
`write_piece`. -/
def fileManagerAttrNames : List String :=
  ["torrent", "output_path", "files", "downloaded",
   "_init_files", "write_block", "read_block", "validate_piece",
   "get_downloaded", "close", "read_piece"]

/-! ## PieceManager (src/piece_manager.py)

State owned by `PieceManager`, together with the engine-visible effects:
pieces written through the file store and progress snapshots written via
`progress_manager.save_progress`. -/

structure PMState where
  pieces : List (Nat × List (Option Bytes))
  havePieces : List Nat
  failedPieces : List Nat
  pieceProgress : List (Nat × ℚ)
  progressFile : String
  written : List (Nat × Bytes)
  savedProgress : List (String × List Nat)
deriving DecidableEq, Repr

/-- Piece length from `PieceManager.piece_length` (src/piece_manager.py
lines 142-146). -/
def pm_piece_length (t : Torrent) (index : Nat) : Int :=
  if (index : Int) = (t.num_pieces : Int) - 1 then
    t.totalLength - (index : Int) * t.pieceLength
  else t.pieceLength

/-- Number of block slots allocated for a piece:
`(self.piece_length(index) + BLOCK_SIZE - 1) // BLOCK_SIZE` (Python floor
division; a non-positive count yields an empty slot list, as
`[None] * n` does). -/
def pm_num_blocks (t : Torrent) (index : Nat) : Nat :=
  ((pm_piece_length t index + (BLOCK_SIZE : Int) - 1).fdiv (BLOCK_SIZE : Int)).toNat

/-- Reassembly `b''.join(self.pieces[index])`, called only when every
slot is filled. -/
def joinBytes (l : List (Option Bytes)) : Bytes :=
  l.foldr (fun o acc => o.getD [] ++ acc) []

/-! `progress_manager.py` path computations, needed both by the manager
embedding and by the resume claim. `save_progress` derives its target from
`os.path.splitext(file_path)[0]`, `load_progress` from the unsplit path. -/

/-- Index of the last occurrence of a character, scanning left to right
(CPython's `rfind`): `none` when absent. -/
def lastIdxOf (c : Char) (l : List Char) : Option Nat :=
  (l.enum.filter (fun p => p.2 = c)).getLast?.map (fun p => p.1)

/-- Root component of `os.path.splitext(p)`: split at the final dot of the
basename unless every character between the last separator and that dot is
itself a dot (leading-dot filenames keep their dots). -/
def splitextRoot (p : String) : String :=
  let cs := p.data
  let sepIdx : Int := match lastIdxOf '/' cs with | some i => (i : Int) | none => -1
  match lastIdxOf '.' cs with
  | none => p
  | some dotIdx =>
    if sepIdx < (dotIdx : Int) then
      if (List.range dotIdx).any (fun k => sepIdx < (k : Int) ∧ cs.getD k '.' ≠ '.') then
        String.mk (cs.take dotIdx)
      else p
    else p

/-- Target path of `save_progress` (src/progress_manager.py line 7). -/
def save_path (p : String) : String := splitextRoot p ++ ".progress"

/-- Source path of `load_progress` (src/progress_manager.py line 16). -/
def load_path (p : String) : String := p ++ ".progress"

/-- The file system visible to the progress manager: path to stored
progress payload (the JSON round trip of the `have` list is lossless, so
the payload is kept structurally). -/
abbrev ProgressFS := List (String × List Nat)

/-- Effect of `save_progress(file_path, data)` (src/progress_manager.py
lines 4-11): write the payload at the splitext-derived path. -/
def save_progress (fs : ProgressFS) (filePath : String) (data : List Nat) : ProgressFS :=
  aset fs (save_path filePath) data

/-- Result of `load_progress(file_path)` (src/progress_manager.py lines
13-21): read `file_path + '.progress'` when it exists, else `None`. -/
def load_progress (fs : ProgressFS) (filePath : String) : Option (List Nat) :=
  aget fs (load_path filePath)

/-- Transition of `PieceManager.on_piece_received` (src/piece_manager.py
lines 110-136).  `none` models an uncaught exception.  The first statement
(line 112) resolves `self.torrent.piece_hashes`, which the wired `Torrent`
does not define — its hash list is named `pieces` — so as wired the method
raises `AttributeError` before any write or `have_pieces.add`.  The rest
of the body is embedded from the source for the record: were the lookup to
succeed, a hash match would resolve `self.file_manager.write_piece`
(line 115) — also absent from the wired `FileManager` — and a mismatch
would mark the piece failed and drop its partial data. -/
def on_piece_received (t : Torrent) (st : PMState) (index : Nat) (piece : Bytes) :
    Option PMState :=
  if torrentAttrNames.contains "piece_hashes" then
    (t.pieceHashes.get? index).bind (fun expected =>
      if sha1_hash piece = expected then
        if fileManagerAttrNames.contains "write_piece" then
          let have' := sadd st.havePieces index
          some { st with
            written := st.written ++ [(index, piece)],
            havePieces := have',
            pieceProgress := aset st.pieceProgress index 100,
            pieces := adel st.pieces index,
            failedPieces := sdel st.failedPieces index,
            savedProgress := st.savedProgress ++ [(save_path st.progressFile, have')] }
        else none
      else
        some { st with
          failedPieces := sadd st.failedPieces index,
          pieces := adel st.pieces index,
          pieceProgress := aset st.pieceProgress index 0 })
  else none

/-- Progress bookkeeping at the end of `receive_block`
(src/piece_manager.py lines 98-103): record the new completion percentage
when it grew or moved by at least five points. -/
def progress_update (st : PMState) (index : Nat) (newProgress : ℚ) : PMState :=
  let prev := (aget st.pieceProgress index).getD 0
  if newProgress > prev ∨ newProgress - prev ≥ 5 then
    { st with pieceProgress := aset st.pieceProgress index newProgress }
  else st

/-- Slot-array initialization on first contact with a piece
(src/piece_manager.py lines 53-57). -/
def init_piece (t : Torrent) (st : PMState) (index : Nat) : PMState :=
  match aget st.pieces index with
  | some _ => st
  | none =>
    { st with pieces := aset st.pieces index (List.replicate (pm_num_blocks t index) none),
              pieceProgress := aset st.pieceProgress index 0 }

/-- Transition of `PieceManager.receive_block` (src/piece_manager.py lines
44-108): validate the piece index, allocate slots on demand, validate the
slot index and the block length against
`min(BLOCK_SIZE, piece_length(index) - begin)`, store the block, then
update the progress percentage.  When the stored block completes the
piece, line 85 resolves `self.torrent.piece_hashes` — absent from the
wired `Torrent` — so `AttributeError` is raised there, the blanket
`except` at line 105 swallows it, and the call returns with the block left
in its slot: the hash comparison, the slot reset and the `piece_received`
publish of lines 86-96, embedded below for the record, are unreachable as
wired, as is the progress update of lines 98-103 on that path. -/
def receive_block (t : Torrent) (st : PMState) (index begin_ : Nat) (block : Bytes) :
    PMState :=
  if index < t.num_pieces then
    let st₁ := init_piece t st index
    let slots := (aget st₁.pieces index).getD []
    let blockIndex := begin_ / BLOCK_SIZE
    if blockIndex < slots.length then
      let expectedSize : Int := min (BLOCK_SIZE : Int) (pm_piece_length t index - (begin_ : Int))
      if (block.length : Int) = expectedSize then
        let slots' := slots.set blockIndex (some block)
        let st₂ := { st₁ with pieces := aset st₁.pieces index slots' }
        let completed := (slots'.filter (fun o => o.isSome)).length
        let total := slots'.length
        if completed = total then
          if torrentAttrNames.contains "piece_hashes" then
            let full := joinBytes slots'
            let st₃ :=
              if sha1_hash full = t.pieceHashes.getD index [] then
                let st' := (on_piece_received t st₂ index full).getD st₂
                { st' with failedPieces := sdel st'.failedPieces index }
              else
                { st₂ with pieces := aset st₂.pieces index (List.replicate total none),
                           failedPieces := sadd st₂.failedPieces index,
                           pieceProgress := aset st₂.pieceProgress index 0 }
            progress_update st₃ index (((completed : ℚ) / (total : ℚ)) * 100)
          else st₂
        else
          progress_update st₂ index (((completed : ℚ) / (total : ℚ)) * 100)
      else st₁
    else st₁
  else st

/-- Transition of `PieceManager._verify_all_pieces` (src/piece_manager.py
lines 148-185): read every piece from the file store, fail on an
unreadable piece or a hash mismatch, and otherwise accumulate the verified
indices into `have_pieces`.  This models the routine's intended
hash-checking; as wired it aborts even earlier (line 165 resolves the same
absent `piece_hashes` attribute, re-raised as `ValueError` at line 183),
so crediting it here only over-states the verification the program can
perform — and it runs at all only under `seed_mode=True`, which no caller
sets. -/
def verify_all_pieces (t : Torrent) (readPiece : Nat → Option Bytes)
    (have₀ : List Nat) : Except String (List Nat) :=
  (List.range t.num_pieces).foldlM
    (fun acc i =>
      match readPiece i with
      | none => .error "Failed to read piece"
      | some data =>
        if sha1_hash data = t.pieceHashes.getD i [] then .ok (sadd acc i)
        else .error "hash verification failed")
    have₀

/-- Have-set population performed by `Client._start_seeding`
(src/client.py lines 203-210): every index below `num_pieces` is added,
with no disk access. -/
def client_seed_have (t : Torrent) (have₀ : List Nat) : List Nat :=
  (List.range t.num_pieces).foldl sadd have₀

/-! ## Tracker compact peer lists (src/tracker.py)

Both `_http_connect` (lines 204-212) and `_udp_connect` (lines 115-125)
walk the peer bytes six at a time, render the first four bytes with
`socket.inet_ntoa` and the last two as a big-endian port, and skip an
endpoint equal to `('127.0.0.1', self.port)` — the client's own port,
`6881` by default. -/

/-- Dotted-quad rendering of four bytes, as `socket.inet_ntoa`. -/
def inet_ntoa (b0 b1 b2 b3 : Nat) : String :=
  toString b0 ++ "." ++ toString b1 ++ "." ++ toString b2 ++ "." ++ toString b3

/-- The compact-peers loop of `Tracker._http_connect` (and identically
`_udp_connect`): decode each complete 6-byte group, dropping the group
that names the local endpoint; a trailing partial group is ignored. -/
def parse_compact_peers (selfPort : Nat) : Bytes → List (String × Nat)
  | b0 :: b1 :: b2 :: b3 :: p0 :: p1 :: rest =>
    let ip := inet_ntoa b0 b1 b2 b3
    let port := p0 * 256 + p1
    if ip = "127.0.0.1" ∧ port = selfPort then parse_compact_peers selfPort rest
    else (ip, port) :: parse_compact_peers selfPort rest
  | _ => []

/-- Decoding required by the specification: every 6-byte group yields its
endpoint, none skipped.  Kept for comparison with the source's loop. -/
def spec_decode_compact : Bytes → List (String × Nat)
  | b0 :: b1 :: b2 :: b3 :: p0 :: p1 :: rest =>
    (inet_ntoa b0 b1 b2 b3, p0 * 256 + p1) :: spec_decode_compact rest
  | _ => []

/-! ## Handshake (src/utils.py) and outbound connect (src/peer.py) -/

/-- The 19-byte protocol string `b'BitTorrent protocol'`. -/
def PROTOCOL_BYTES : Bytes :=
  [66, 105, 116, 84, 111, 114, 114, 101, 110, 116, 32,
   112, 114, 111, 116, 111, 99, 111, 108]

/-- Handshake construction `pack_handshake` (src/utils.py lines 27-30). -/
def pack_handshake (infoHash peerId : Bytes) : Bytes :=
  [19] ++ PROTOCOL_BYTES ++ List.replicate 8 0 ++ infoHash ++ peerId

/-- Handshake validation `unpack_handshake` (src/utils.py lines 32-39):
`none` models the `ValueError` raised on a bad protocol header; otherwise
the info-hash is bytes 28..48 and the peer id bytes 48..68. -/
def unpack_handshake (data : Bytes) : Option (Bytes × Bytes) :=
  match data with
  | [] => none
  | b :: _ =>
    if b = 19 ∧ bslice data 1 20 = PROTOCOL_BYTES then
      some (bslice data 28 48, bslice data 48 68)
    else none

/-- Outcome of `Peer.connect` (src/peer.py lines 27-86) from the point the
handshake response has been read: `established` is the boolean the method
returns, and `sockClosed` records the `self.sock.close()` performed by the
exception handler. -/
structure ConnectOutcome where
  established : Bool
  sockClosed : Bool
deriving DecidableEq, Repr

/-- Handshake-response handling in `Peer.connect`: a short response, a bad
protocol header or an info-hash mismatch each raise, which the handler
turns into a closed socket and a `False` return; only a well-formed
response carrying the torrent's own info-hash leaves the session up. -/
def peer_connect (torrentInfoHash : Bytes) (resp : Bytes) : ConnectOutcome :=
  if resp.length = 68 then
    match unpack_handshake resp with
    | none => ⟨false, true⟩
    | some (infoHash, _peerId) =>
      if infoHash = torrentInfoHash then ⟨true, false⟩ else ⟨false, true⟩
  else ⟨false, true⟩

/-! ## Peer construction in seeding mode (src/peer.py, src/client.py)

`Peer.__init__` with `is_seeding=True` runs
`pub.subscribe(self.on_piece_requested, 'piece_requested')`.  Attribute
lookup on the instance falls back to the class body; the table below
enumerates every method defined by `class Peer` in src/peer.py. -/

def peerClassMethodNames : List String :=
  ["connect", "handle_messages", "process_message", "send_message",
   "send_interested", "send_unchoke", "send_bitfield", "send_piece",
   "request_pieces", "piece_length", "handle_incoming", "send_request",
   "close"]

/-- Effect of `Peer.__init__` (src/peer.py lines 11-25): the plain field
assignments always succeed; the seeding branch additionally resolves
`self.on_piece_requested`, raising `AttributeError` when the class defines
no such method. -/
def peer_new (isSeeding : Bool) : Except String Unit :=
  if isSeeding then
    if peerClassMethodNames.contains "on_piece_requested" then .ok ()
    else .error "AttributeError"
  else .ok ()

/-! ## Bencode codec (bencodepy/bcoding, as used by src/torrent.py)

`Torrent.__init__` (src/torrent.py lines 10-23) decodes the torrent file
with `bencodepy.decode` and computes
`self.info_hash = sha1_hash(bencodepy.encode(self.info))` — a hash of the
re-encoded parsed info value.  The codec is third-party; it is embedded
here from its documented and well-known behavior: the decoder accepts
dictionary keys in any order (no ordering check) and rejects non-canonical
integers and string lengths (leading zeros, negative zero); the encoder
emits dictionary entries sorted by raw key bytes.  The `int()` laxities
(plus signs, surrounding whitespace) are not modelled; no input in scope
exercises them. -/

inductive Bencode where
  | int (n : Int)
  | str (s : Bytes)
  | list (xs : List Bencode)
  | dict (kvs : List (Bytes × Bencode))

/-- Decimal digits of a natural number, as ASCII bytes; the fuel only
bounds the recursion depth and `n` itself is always enough of it. -/
def natToDigitsAux : Nat → Nat → Bytes
  | 0, _ => []
  | fuel + 1, n => if n < 10 then [48 + n] else natToDigitsAux fuel (n / 10) ++ [48 + n % 10]

/-- Decimal digits of a natural number, as ASCII bytes. -/
def natToDigits (n : Nat) : Bytes := natToDigitsAux (n + 1) n

/-- Decimal rendering of a Python integer, as ASCII bytes. -/
def intToDigits (n : Int) : Bytes :=
  if n < 0 then 45 :: natToDigits (-n).toNat else natToDigits n.toNat

/-- Value of a digit string (caller guarantees digits). -/
def digitsToNat (ds : Bytes) : Nat :=
  ds.foldl (fun acc d => acc * 10 + (d - 48)) 0

/-- Whether a byte is an ASCII digit. -/
def isDigitB (b : Nat) : Bool := 48 ≤ b && b ≤ 57

/-- Split off the leading digit span. -/
def takeDigits : Bytes → Bytes × Bytes
  | [] => ([], [])
  | b :: rest =>
    if isDigitB b then
      let (ds, r) := takeDigits rest
      (b :: ds, r)
    else ([], b :: rest)

/-- Byte-lexicographic strict order, as Python compares `bytes`. -/
def bytesLt : Bytes → Bytes → Bool
  | [], [] => false
  | [], _ :: _ => true
  | _ :: _, [] => false
  | a :: as, b :: bs => if a < b then true else if b < a then false else bytesLt as bs

/-- Byte-lexicographic order (reflexive). -/
def bytesLe (a b : Bytes) : Bool := !bytesLt b a

/-- Stable insertion into an encoded-pair list ordered by key bytes. -/
def insertPair (p : Bytes × Bytes) : List (Bytes × Bytes) → List (Bytes × Bytes)
  | [] => [p]
  | q :: rest => if bytesLe p.1 q.1 then p :: q :: rest else q :: insertPair p rest

/-- Sort encoded dictionary entries by raw key bytes, as
`sorted(x.items())` orders a decoded dictionary (keys are unique, so the
tuple comparison never reaches the values). -/
def sortPairs : List (Bytes × Bytes) → List (Bytes × Bytes)
  | [] => []
  | p :: rest => insertPair p (sortPairs rest)

/-- Canonical encoding of a string token. -/
def encStrBytes (s : Bytes) : Bytes := natToDigits s.length ++ 58 :: s

/-- Concatenate encoded dictionary entries. -/
def bencSorted : List (Bytes × Bytes) → Bytes
  | [] => []
  | (k, ev) :: rest => encStrBytes k ++ ev ++ bencSorted rest

mutual
/-- The canonical bencode encoder (`bencodepy.encode`): integers as
`i<decimal>e`, strings as `<len>:<bytes>`, lists as `l...e`, dictionaries
as `d...e` with entries sorted by key bytes (values are encoded first and
the encoded entries sorted by their raw keys, which orders entries exactly
as encoding after sorting would). -/
def benc : Bencode → Bytes
  | .int n => 105 :: intToDigits n ++ [101]
  | .str s => encStrBytes s
  | .list xs => 108 :: bencItems xs ++ [101]
  | .dict kvs => 100 :: bencSorted (sortPairs (bencPairs kvs)) ++ [101]

/-- Encode list items in order. -/
def bencItems : List Bencode → Bytes
  | [] => []
  | x :: xs => benc x ++ bencItems xs

/-- Encode each dictionary value, keeping its raw key. -/
def bencPairs : List (Bytes × Bencode) → List (Bytes × Bytes)
  | [] => []
  | (k, v) :: rest => (k, benc v) :: bencPairs rest
end

/-- Parse a string token `<len>:<bytes>` (decoder side): digits without a
leading zero (unless the single digit `0`), a colon, then exactly `len`
bytes. -/
def parseStrTok (input : Bytes) : Option (Bytes × Bytes) :=
  let (ds, r) := takeDigits input
  if ds = [] then none
  else if ds.headD 0 = 48 ∧ ds.length ≠ 1 then none
  else
    match r with
    | 58 :: r' =>
      let n := digitsToNat ds
      if n ≤ r'.length then some (r'.take n, r'.drop n) else none
    | _ => none

/-- Parse the body of an integer token up to its `e`: an optional minus
(never before a zero digit), digits without leading zeros. -/
def parseIntTok (input : Bytes) : Option (Int × Bytes) :=
  match input with
  | 45 :: rest =>
    let (ds, r) := takeDigits rest
    if ds = [] ∨ ds.headD 0 = 48 then none
    else
      match r with
      | 101 :: r' => some (-(digitsToNat ds : Int), r')
      | _ => none
  | _ =>
    let (ds, r) := takeDigits input
    if ds = [] ∨ (ds.headD 0 = 48 ∧ ds.length ≠ 1) then none
    else
      match r with
      | 101 :: r' => some ((digitsToNat ds : Int), r')
      | _ => none

mutual
/-- The tolerant decoder (`bencodepy.decode`): structure driven by the
leading byte; dictionary keys must be strings but may appear in any order.
The fuel argument bounds nesting and only ever falls short of an actual
parse when it is smaller than the input length. -/
def bdecodeV : Nat → Bytes → Option (Bencode × Bytes)
  | 0, _ => none
  | fuel + 1, input =>
    match input with
    | 105 :: rest => (parseIntTok rest).map (fun (n, r) => (Bencode.int n, r))
    | 108 :: rest => (bdecodeItems fuel rest).map (fun (xs, r) => (Bencode.list xs, r))
    | 100 :: rest => (bdecodePairs fuel rest).map (fun (kvs, r) => (Bencode.dict kvs, r))
    | other => (parseStrTok other).map (fun (s, r) => (Bencode.str s, r))

/-- Decode list items until the closing `e`. -/
def bdecodeItems : Nat → Bytes → Option (List Bencode × Bytes)
  | 0, _ => none
  | fuel + 1, input =>
    match input with
    | 101 :: rest => some ([], rest)
    | _ =>
      match bdecodeV fuel input with
      | none => none
      | some (v, r) =>
        match bdecodeItems fuel r with
        | none => none
        | some (vs, r') => some (v :: vs, r')

/-- Decode dictionary entries until the closing `e`, in file order. -/
def bdecodePairs : Nat → Bytes → Option (List (Bytes × Bencode) × Bytes)
  | 0, _ => none
  | fuel + 1, input =>
    match input with
    | 101 :: rest => some ([], rest)
    | _ =>
      match parseStrTok input with
      | none => none
      | some (k, r) =>
        match bdecodeV fuel r with
        | none => none
        | some (v, r') =>
          match bdecodePairs fuel r' with
          | none => none
          | some (kvs, r'') => some ((k, v) :: kvs, r'')
end

/-- Whole-input decode, rejecting trailing bytes (`bencodepy.decode`). -/
def bdecodeTop (x : Bytes) : Option Bencode :=
  match bdecodeV (x.length + 1) x with
  | some (v, []) => some v
  | _ => none

/-- Python dictionary lookup on a decoded dictionary: with duplicate keys
the later entry overwrites the earlier, so the last match wins. -/
def blookup (k : Bytes) : List (Bytes × Bencode) → Option Bencode
  | [] => none
  | (k', v) :: rest =>
    match blookup k rest with
    | some r => some r
    | none => if k' = k then some v else none

/-- First-match association lookup on decoded dictionary entries; it
agrees with `blookup` whenever the keys are distinct (in particular when
they are strictly sorted). -/
def firstLookup (k : Bytes) : List (Bytes × Bencode) → Option Bencode
  | [] => none
  | (k', v) :: rest => if k' = k then some v else firstLookup k rest

/-- The bytes of the key `info`. -/
def infoKey : Bytes := [105, 110, 102, 111]

/-- The bytes of the key `announce`. -/
def announceKey : Bytes := [97, 110, 110, 111, 117, 110, 99, 101]

/-- The bytes of the key `piece length`. -/
def pieceLengthKey : Bytes := [112, 105, 101, 99, 101, 32, 108, 101, 110, 103, 116, 104]

/-- The bytes of the key `pieces`. -/
def piecesKey : Bytes := [112, 105, 101, 99, 101, 115]

/-- The bytes of the key `name`. -/
def nameKey : Bytes := [110, 97, 109, 101]

/-- The bytes of the key `length`. -/
def lengthKey : Bytes := [108, 101, 110, 103, 116, 104]

/-- The bytes of the key `files`. -/
def filesKey : Bytes := [102, 105, 108, 101, 115]

/-- Walk the top-level dictionary body and return the raw byte slice of
the value stored under `info`, exactly as it appears in the input.  This
is the slice the specification requires the info-hash to cover; the
consumed range of each value delimits its slice. -/
def findInfoSlice : Nat → Bytes → Option Bytes
  | 0, _ => none
  | fuel + 1, input =>
    match input with
    | 101 :: _ => none
    | _ =>
      match parseStrTok input with
      | none => none
      | some (k, r) =>
        match bdecodeV (fuel + 1) r with
        | none => none
        | some (_, r') =>
          if k = infoKey then some (r.take (r.length - r'.length))
          else findInfoSlice fuel r'

/-- Raw byte slice of the info dictionary of a torrent file. -/
def rawInfoSlice (x : Bytes) : Option Bytes :=
  match x with
  | 100 :: rest => findInfoSlice (rest.length + 1) rest
  | _ => none

/-- The parsed info value `self.info = meta_info[b'info']`
(src/torrent.py line 20). -/
def torrent_info (x : Bytes) : Option Bencode :=
  match bdecodeTop x with
  | some (.dict kvs) => blookup infoKey kvs
  | _ => none

/-- The exposed info-hash
`self.info_hash = sha1_hash(bencodepy.encode(self.info))`
(src/torrent.py line 23): SHA-1 of the canonical re-encoding of the parsed
info value. -/
def torrent_info_hash (x : Bytes) : Option Bytes :=
  (torrent_info x).map (fun v => sha1_hash (benc v))

/-- The load-time checks of `Torrent.__init__` (src/torrent.py lines
10-72) that decide whether a torrent file is accepted: a bencoded
dictionary with an `announce` string and an `info` dictionary carrying
`piece length`, a `pieces` string of length a multiple of 20, a `name`
string, and `length` (single-file) or `files` (multi-file).  UTF-8
decodability of the name and announce strings is not modelled; the inputs
in scope are ASCII. -/
def torrent_loads (x : Bytes) : Bool :=
  match bdecodeTop x with
  | some (.dict kvs) =>
    (match blookup announceKey kvs with | some (.str _) => true | _ => false) &&
    (match blookup infoKey kvs with
     | some (.dict info) =>
       (blookup pieceLengthKey info).isSome &&
       (match blookup piecesKey info with
        | some (.str ps) => ps.length % 20 = 0
        | _ => false) &&
       (match blookup nameKey info with | some (.str _) => true | _ => false) &&
       ((blookup filesKey info).isSome || (blookup lengthKey info).isSome)
     | _ => false)
  | _ => false

/-- Strictly ascending byte-lexicographic key chain. -/
def keysSortedStrict : List Bytes → Bool
  | [] => true
  | [_] => true
  | a :: b :: rest => bytesLt a b && keysSortedStrict (b :: rest)

mutual
/-- Canonically-encoded values: every dictionary, at every level, has its
keys in strictly ascending byte order.  Exactly these values re-encode to
their own source bytes. -/
def validB : Bencode → Bool
  | .int _ => true
  | .str _ => true
  | .list xs => validItems xs
  | .dict kvs => keysSortedStrict (kvs.map (fun p => p.1)) && validPairs kvs

/-- Validity of list items. -/
def validItems : List Bencode → Bool
  | [] => true
  | x :: xs => validB x && validItems xs

/-- Validity of dictionary values. -/
def validPairs : List (Bytes × Bencode) → Bool
  | [] => true
  | (_, v) :: rest => validB v && validPairs rest
end

/-! ## Concrete fixtures used by witnesses and counterexamples -/

/-- An empty manager state with the engine-configured progress path
(`os.path.join(output_path, "progress.json")`, piece_manager.py line 22). -/
def pmEmpty : PMState := ⟨[], [], [], [], "downloads/progress.json", [], []⟩

/-- A 20-byte all-zero digest, used as an expected hash no real data
matches. -/
def zeros20 : Bytes := List.replicate 20 0

/-- One 16394-byte piece (two block slots), expected hash all-zero. -/
def tTwoSlots : Torrent := ⟨[zeros20], 16394, 16394⟩

/-- One 3-byte piece, expected hash all-zero (never matches). -/
def tSmallZeros : Torrent := ⟨[zeros20], 3, 3⟩

/-- SHA-1 digest of the empty byte string. -/
def emptyDigest : Bytes :=
  [218, 57, 163, 238, 94, 107, 75, 13, 50, 85, 191, 239, 149, 96, 24, 144, 175, 216, 7, 9]

/-- One 1-byte piece, expected hash all-zero. -/
def tOneByte : Torrent := ⟨[zeros20], 1, 1⟩

/-- A disk whose only piece reads back as the single byte `a`, which does
not hash to the all-zero digest. -/
def diskBad : Nat → Option Bytes := fun _ => some [97]

/-- One piece expecting the empty digest, over a disk that reads back
empty bytes. -/
def tEmptyPiece : Torrent := ⟨[emptyDigest], 0, 0⟩

/-- A disk whose pieces all read back empty. -/
def diskEmpty : Nat → Option Bytes := fun _ => some []

/-- Two pieces of nominal length 4 over 7 total bytes. -/
def tTwoPieces : Torrent := ⟨[zeros20, zeros20], 4, 7⟩

/-- The spec's compact peer example bytes
`\x7f\x00\x00\x01\x1a\xe1\x0a\x00\x00\x02\x1a\xe2`. -/
def compactExample : Bytes := [127, 0, 0, 1, 26, 225, 10, 0, 0, 2, 26, 226]

/-- A syntactically well-formed torrent file whose info dictionary is
bencoded with its keys out of canonical order
(`d8:announce1:u4:infod4:name1:x6:lengthi1e12:piece lengthi1e6:pieces0:ee`
— `name` precedes `length`). -/
def xNonCanonical : Bytes :=
  [100, 56, 58, 97, 110, 110, 111, 117, 110, 99, 101, 49, 58, 117, 52, 58,
   105, 110, 102, 111, 100, 52, 58, 110, 97, 109, 101, 49, 58, 120, 54, 58,
   108, 101, 110, 103, 116, 104, 105, 49, 101, 49, 50, 58, 112, 105, 101,
   99, 101, 32, 108, 101, 110, 103, 116, 104, 105, 49, 101, 54, 58, 112,
   105, 101, 99, 101, 115, 48, 58, 101, 101]

/-- A canonical single-entry top dictionary holding an empty info
dictionary. -/
def kvsCanonical : List (Bytes × Bencode) := [(infoKey, .dict [])]

/-! ## Helper lemmas on the dictionary and set models -/

theorem aget_aset_self {α : Type} (l : List (Nat × α)) (k : Nat) (v : α) :
    aget (aset l k v) k = some v := by
  induction l with
  | nil => simp [aset, aget]
  | cons p rest ih =>
    by_cases h : p.1 = k
    · simp [aset, aget, h]
    · simp [aset, aget, h, ih]

theorem mem_sadd (l : List Nat) (x y : Nat) : y ∈ sadd l x ↔ y ∈ l ∨ y = x := by
  unfold sadd
  by_cases h : x ∈ l
  · simp only [if_pos h]
    constructor
    · exact Or.inl
    · rintro (hy | rfl)
      · exact hy
      · exact h
  · simp [if_neg h]

theorem mem_sadd_self (l : List Nat) (x : Nat) : x ∈ sadd l x := by
  rw [mem_sadd]; exact Or.inr rfl

theorem progress_update_pieces (st : PMState) (i : Nat) (q : ℚ) :
    (progress_update st i q).pieces = st.pieces := by
  show (if q > (aget st.pieceProgress i).getD 0 ∨ q - (aget st.pieceProgress i).getD 0 ≥ 5 then
      { st with pieceProgress := aset st.pieceProgress i q } else st).pieces = st.pieces
  split <;> rfl

theorem progress_update_havePieces (st : PMState) (i : Nat) (q : ℚ) :
    (progress_update st i q).havePieces = st.havePieces := by
  show (if q > (aget st.pieceProgress i).getD 0 ∨ q - (aget st.pieceProgress i).getD 0 ≥ 5 then
      { st with pieceProgress := aset st.pieceProgress i q } else st).havePieces = st.havePieces
  split <;> rfl

theorem progress_update_failedPieces (st : PMState) (i : Nat) (q : ℚ) :
    (progress_update st i q).failedPieces = st.failedPieces := by
  show (if q > (aget st.pieceProgress i).getD 0 ∨ q - (aget st.pieceProgress i).getD 0 ≥ 5 then
      { st with pieceProgress := aset st.pieceProgress i q } else st).failedPieces = st.failedPieces
  split <;> rfl

theorem progress_update_written (st : PMState) (i : Nat) (q : ℚ) :
    (progress_update st i q).written = st.written := by
  show (if q > (aget st.pieceProgress i).getD 0 ∨ q - (aget st.pieceProgress i).getD 0 ≥ 5 then
      { st with pieceProgress := aset st.pieceProgress i q } else st).written = st.written
  split <;> rfl

theorem foldl_sadd_mem (l : List Nat) (a : List Nat) (i : Nat) :
    i ∈ l.foldl sadd a ↔ i ∈ a ∨ i ∈ l := by
  induction l generalizing a with
  | nil => simp
  | cons x xs ih =>
    simp only [List.foldl_cons, ih, mem_sadd, List.mem_cons]
    tauto

/-! ## Claim theorems -/

/-- C8: for every torrent and every piece index `i` below `n_pieces`, both
`Torrent.piece_size` (src/torrent.py) and `PieceManager.piece_length`
(src/piece_manager.py) return `piece_length` for every non-final piece and
`total_length - (n_pieces - 1) * piece_length` for the final piece. -/
theorem C8_piece_length_formula (t : Torrent) (i : Nat) (hi : i < t.num_pieces) :
    (i < t.num_pieces - 1 →
      t.piece_size i = t.pieceLength ∧ pm_piece_length t i = t.pieceLength)
  ∧ (i = t.num_pieces - 1 →
      t.piece_size i = t.totalLength - ((t.num_pieces : Int) - 1) * t.pieceLength
    ∧ pm_piece_length t i = t.totalLength - ((t.num_pieces : Int) - 1) * t.pieceLength) := by
  unfold Torrent.piece_size pm_piece_length
  constructor
  · intro hlt
    have h1 : (i : Int) < (t.num_pieces : Int) - 1 := by omega
    have h2 : ¬ ((i : Int) = (t.num_pieces : Int) - 1) := by omega
    rw [if_pos h1, if_neg h2]
    exact ⟨rfl, rfl⟩
  · intro heq
    have h1 : ¬ ((i : Int) < (t.num_pieces : Int) - 1) := by omega
    have h2 : (i : Int) = (t.num_pieces : Int) - 1 := by omega
    rw [if_neg h1, if_pos h2, h2]
    exact ⟨rfl, rfl⟩

/-- Witness for C8 at the final piece of a two-piece torrent of nominal
piece length 4 and total length 7. -/
theorem C8_piece_length_formula_witness :
    (1 < tTwoPieces.num_pieces - 1 →
      tTwoPieces.piece_size 1 = tTwoPieces.pieceLength
    ∧ pm_piece_length tTwoPieces 1 = tTwoPieces.pieceLength)
  ∧ (1 = tTwoPieces.num_pieces - 1 →
      tTwoPieces.piece_size 1
        = tTwoPieces.totalLength - ((tTwoPieces.num_pieces : Int) - 1) * tTwoPieces.pieceLength
    ∧ pm_piece_length tTwoPieces 1
        = tTwoPieces.totalLength - ((tTwoPieces.num_pieces : Int) - 1) * tTwoPieces.pieceLength) :=
  C8_piece_length_formula tTwoPieces 1 (by decide)

/-- C9: when the 68-byte handshake response carries an info-hash (bytes
28..48) different from the torrent's, `Peer.connect` reports failure and
the socket is closed; the session is never established. -/
theorem C9_handshake_mismatch_closes (torrentIH resp : Bytes)
    (h68 : resp.length = 68)
    (hmis : bslice resp 28 48 ≠ torrentIH) :
    peer_connect torrentIH resp = ⟨false, true⟩ := by
  unfold peer_connect
  rw [if_pos h68]
  cases resp with
  | nil => simp at h68
  | cons b rest =>
    simp only [unpack_handshake]
    by_cases hp : b = 19 ∧ bslice (b :: rest) 1 20 = PROTOCOL_BYTES
    · simp only [if_pos hp, if_neg hmis]
    · simp only [if_neg hp]

/-- Witness for C9: a well-formed handshake built over a different
info-hash is rejected and the socket closed. -/
theorem C9_handshake_mismatch_closes_witness :
    peer_connect zeros20 (pack_handshake (List.replicate 20 1) (List.replicate 20 2))
      = ⟨false, true⟩ :=
  C9_handshake_mismatch_closes zeros20 _ (by decide) (by decide)

/-- C10 (code bug): constructing a `Peer` with `is_seeding=True` resolves
`self.on_piece_requested` for the pubsub subscription, but `class Peer`
defines no such method (the only `on_piece_requested` in the repository is
a method of the obsolete `Client` in src/client_old.py), so the
constructor raises `AttributeError` and the seeding upload path is
unreachable. -/
theorem C10_seeding_ctor_raises : peer_new true = .error "AttributeError" := by rfl

/-- C7 (code bug): `save_progress` writes to
`os.path.splitext(path)[0] + '.progress'` while `load_progress` reads
`path + '.progress'`; with the engine-configured path
`<output>/progress.json` the two differ, so a load after a save finds
nothing and resume always falls back to nothing. -/
theorem C7_progress_roundtrip_fails :
    save_path "downloads/progress.json" ≠ load_path "downloads/progress.json"
  ∧ load_progress (save_progress [] "downloads/progress.json" [0, 1])
      "downloads/progress.json" = none := by decide

/-- C6 (counterexample): with the client's configured listening port 6881
(`Tracker.__init__` default, and the value `Client.__init__` assigns), the
spec's example compact string decodes to a single endpoint — the group
`(127.0.0.1, 6881)` is skipped by the localhost filter — not to the two
endpoints the claim requires. -/
theorem C6_compact_example_fails :
    parse_compact_peers 6881 compactExample = [("10.0.0.2", 6882)]
  ∧ parse_compact_peers 6881 compactExample
      ≠ [("127.0.0.1", 6881), ("10.0.0.2", 6882)] := by decide

/-- C6 (amended): a compact peer string of length `6k` describes exactly
`k` endpoints (dotted-quad of the first four bytes of each group,
big-endian port of the last two), and the tracker loop returns exactly
those endpoints minus any group equal to `('127.0.0.1', self.port)`. -/
theorem C6_compact_decode (port k : Nat) (data : Bytes) (hlen : data.length = 6 * k) :
    (spec_decode_compact data).length = k
  ∧ parse_compact_peers port data
      = (spec_decode_compact data).filter
          (fun e => decide ¬(e.1 = "127.0.0.1" ∧ e.2 = port)) := by
  induction k generalizing data with
  | zero =>
    have hd : data = [] := List.length_eq_zero.mp (by omega)
    subst hd
    exact ⟨rfl, rfl⟩
  | succ k ih =>
    rcases data with _ | ⟨a, _ | ⟨b, _ | ⟨c, _ | ⟨d, _ | ⟨e, _ | ⟨f, rest⟩⟩⟩⟩⟩⟩ <;>
      simp only [List.length_nil, List.length_cons] at hlen <;> try omega
    have hrest : rest.length = 6 * k := by omega
    obtain ⟨ihlen, ihparse⟩ := ih rest hrest
    constructor
    · simp [spec_decode_compact, ihlen]
    · by_cases hskip : inet_ntoa a b c d = "127.0.0.1" ∧ e * 256 + f = port
      · simp [parse_compact_peers, spec_decode_compact, List.filter, hskip, ihparse]
      · simp [parse_compact_peers, spec_decode_compact, List.filter, hskip, ihparse]

/-- Witness for C6 (amended) at the spec's example bytes with the default
port: two groups decode and the localhost group is filtered. -/
theorem C6_compact_decode_witness :
    (spec_decode_compact compactExample).length = 2
  ∧ parse_compact_peers 6881 compactExample
      = (spec_decode_compact compactExample).filter
          (fun e => decide ¬(e.1 = "127.0.0.1" ∧ e.2 = 6881)) :=
  C6_compact_decode 6881 2 compactExample (by decide)

/-- C3 (counterexample): `receive_block` never checks that the offset is
block-aligned.  On a 16394-byte piece, a 7-byte block at the misaligned
offset 16387 (`16387 % 16384 = 3`) passes both implemented checks
(`16387 // 16384 = 1 < 2` slots and
`7 = min(16384, 16394 - 16387)`) and is stored in slot 1. -/
theorem C3_misaligned_block_stored :
    16387 % BLOCK_SIZE = 3
  ∧ aget (receive_block tTwoSlots pmEmpty 0 16387 [1, 2, 3, 4, 5, 6, 7]).pieces 0
      = some [none, some [1, 2, 3, 4, 5, 6, 7]] := by
  refine ⟨by decide, ?_⟩
  have hidx : 0 < tTwoSlots.num_pieces := by decide
  have hslot : 16387 / BLOCK_SIZE
      < ((aget (init_piece tTwoSlots pmEmpty 0).pieces 0).getD []).length := by decide
  have hlen : (([1, 2, 3, 4, 5, 6, 7] : Bytes).length : Int)
      = min (BLOCK_SIZE : Int) (pm_piece_length tTwoSlots 0 - ((16387 : Nat) : Int)) := by decide
  have hcomp : ¬ (((((aget (init_piece tTwoSlots pmEmpty 0).pieces 0).getD []).set
        (16387 / BLOCK_SIZE) (some [1, 2, 3, 4, 5, 6, 7])).filter (fun o => o.isSome)).length
      = (((aget (init_piece tTwoSlots pmEmpty 0).pieces 0).getD []).set
          (16387 / BLOCK_SIZE) (some [1, 2, 3, 4, 5, 6, 7])).length) := by decide
  unfold receive_block
  rw [if_pos hidx]
  simp only [if_pos hslot, if_pos hlen, if_neg hcomp]
  rw [progress_update_pieces]
  decide

/-- C3 (amended): `receive_block` stores a block in slot
`begin // 16384` exactly when the piece index is valid, the slot index is
within the piece's slot count, and the block length equals
`min(16384, piece_length(index) - begin)`; offset alignment is not
required.  Any block failing one of the implemented checks is rejected and
leaves the slot array unchanged (beyond allocating an absent piece's empty
slots). -/
theorem C3_block_validation (t : Torrent) (st : PMState) (index begin_ : Nat) (block : Bytes) :
    (¬ index < t.num_pieces → receive_block t st index begin_ block = st)
  ∧ (index < t.num_pieces →
      (¬ begin_ / BLOCK_SIZE < ((aget (init_piece t st index).pieces index).getD []).length →
        receive_block t st index begin_ block = init_piece t st index)
    ∧ (begin_ / BLOCK_SIZE < ((aget (init_piece t st index).pieces index).getD []).length →
        (block.length : Int) ≠ min (BLOCK_SIZE : Int) (pm_piece_length t index - (begin_ : Int)) →
        receive_block t st index begin_ block = init_piece t st index)
    ∧ (begin_ / BLOCK_SIZE < ((aget (init_piece t st index).pieces index).getD []).length →
        (block.length : Int) = min (BLOCK_SIZE : Int) (pm_piece_length t index - (begin_ : Int)) →
        ((((aget (init_piece t st index).pieces index).getD []).set (begin_ / BLOCK_SIZE)
            (some block)).filter (fun o => o.isSome)).length
          ≠ (((aget (init_piece t st index).pieces index).getD []).set (begin_ / BLOCK_SIZE)
              (some block)).length →
        aget (receive_block t st index begin_ block).pieces index
          = some ((((aget (init_piece t st index).pieces index).getD []).set
              (begin_ / BLOCK_SIZE) (some block))))) := by
  refine ⟨fun h => ?_, fun h => ⟨fun h2 => ?_, fun h2 h3 => ?_, fun h2 h3 h4 => ?_⟩⟩
  · unfold receive_block
    rw [if_neg h]
  · unfold receive_block
    rw [if_pos h]
    simp only [if_neg h2]
  · unfold receive_block
    rw [if_pos h]
    simp only [if_pos h2, if_neg h3]
  · unfold receive_block
    rw [if_pos h]
    simp only [if_pos h2, if_pos h3, if_neg h4]
    rw [progress_update_pieces]
    exact aget_aset_self _ _ _

/-- Witness for C3 (amended): on a 3-byte single-slot piece a 2-byte block
at offset 0 fails the length check (`2 ≠ min(16384, 3)`) and is rejected,
leaving only the freshly allocated empty slot array. -/
theorem C3_block_validation_witness :
    receive_block tSmallZeros pmEmpty 0 0 [1, 2] = init_piece tSmallZeros pmEmpty 0 :=
  ((C3_block_validation tSmallZeros pmEmpty 0 0 [1, 2]).2 (by decide)).2.1 (by decide) (by decide)

/-- C4 (code bug): the reset of lines 92-96 spells out exactly the claimed
behavior, but it is unreachable.  On the wired `Torrent` (hash list named
`pieces`), line 85's `self.torrent.piece_hashes` raises `AttributeError`
as soon as a piece completes; the `except` at line 105 swallows it, so a
completed piece whose bytes hash wrong keeps its mismatched block in the
slot array and is never marked failed — evaluated here at the failing
input: a single-slot 3-byte piece expecting the all-zero digest, completed
by the block `abc`. -/
theorem C4_hash_failure_unreachable :
    sha1_hash [97, 98, 99] ≠ tSmallZeros.pieceHashes.getD 0 []
  ∧ aget (receive_block tSmallZeros pmEmpty 0 0 [97, 98, 99]).pieces 0
      = some [some [97, 98, 99]]
  ∧ 0 ∉ (receive_block tSmallZeros pmEmpty 0 0 [97, 98, 99]).failedPieces := by decide

/-- C2 (code bug): the guard at piece_manager.py lines 113-115 matches the
claim's intent, but the transition it guards never occurs: on every
invocation `on_piece_received` resolves `self.torrent.piece_hashes`
(line 112) on the wired `Torrent`, which only defines `pieces`, and raises
`AttributeError` before any write or `have_pieces.add` (were it to get
further, `self.file_manager.write_piece` at line 115 is absent too).  So
the handler always raises — no piece is ever written through the file
store or announced verified through this path. -/
theorem C2_verified_write_unreachable (t : Torrent) (st : PMState) (index : Nat)
    (piece : Bytes) :
    on_piece_received t st index piece = none := by
  unfold on_piece_received
  exact if_neg (by decide)

/-- C5 (counterexample): a seed-mode start (`Client._start_seeding`)
reports piece 0 as held although the bytes on disk for it hash differently
from the metainfo hash: the have-set is populated without reading the
disk at all. -/
theorem C5_seed_marks_unverified :
    diskBad 0 = some [97]
  ∧ 0 ∈ client_seed_have tOneByte []
  ∧ sha1_hash [97] ≠ tOneByte.pieceHashes.getD 0 [] := by
  refine ⟨rfl, ?_, by decide⟩
  unfold client_seed_have
  rw [foldl_sadd_mem]
  right
  simp [Torrent.num_pieces, tOneByte, zeros20]

/-- C5 (amended): `Client._start_seeding` marks every index below
`num_pieces` as held regardless of the disk contents; full verification
happens only in `PieceManager._verify_all_pieces` (run only when the
manager is constructed with `seed_mode=True`, which `Client` does not do),
and that routine marks a piece held only when the bytes it read back hash
to the expected digest. -/
theorem C5_seed_have_population :
    (∀ (t : Torrent) (have₀ : List Nat) (i : Nat),
      i ∈ client_seed_have t have₀ ↔ (i ∈ have₀ ∨ i < t.num_pieces))
  ∧ (∀ (t : Torrent) (readPiece : Nat → Option Bytes) (have₁ : List Nat),
      verify_all_pieces t readPiece [] = .ok have₁ →
      ∀ i ∈ have₁, ∃ bytes, readPiece i = some bytes
        ∧ sha1_hash bytes = t.pieceHashes.getD i []) := by
  constructor
  · intro t have₀ i
    unfold client_seed_have
    rw [foldl_sadd_mem]
    simp
  · intro t readPiece have₁ hok i hi
    unfold verify_all_pieces at hok
    suffices hgen : ∀ (l : List Nat) (acc : List Nat),
        (∀ j ∈ acc, ∃ bytes, readPiece j = some bytes
          ∧ sha1_hash bytes = t.pieceHashes.getD j []) →
        l.foldlM (fun acc i =>
          match readPiece i with
          | none => Except.error "Failed to read piece"
          | some data =>
            if sha1_hash data = t.pieceHashes.getD i [] then Except.ok (sadd acc i)
            else Except.error "hash verification failed") acc = .ok have₁ →
        ∀ j ∈ have₁, ∃ bytes, readPiece j = some bytes
          ∧ sha1_hash bytes = t.pieceHashes.getD j [] by
      exact hgen (List.range t.num_pieces) [] (by simp) hok i hi
    intro l
    induction l with
    | nil =>
      intro acc hacc hfold j hj
      simp only [List.foldlM_nil] at hfold
      have : acc = have₁ := by
        simpa [pure, Except.pure] using hfold
      exact hacc j (this ▸ hj)
    | cons x xs ih =>
      intro acc hacc hfold j hj
      simp only [List.foldlM_cons] at hfold
      cases hread : readPiece x with
      | none => rw [hread] at hfold; simp [Bind.bind, Except.bind] at hfold
      | some data =>
        rw [hread] at hfold
        dsimp only at hfold
        by_cases hsha : sha1_hash data = t.pieceHashes.getD x []
        · rw [if_pos hsha] at hfold
          refine ih (sadd acc x) ?_ (by simpa [Bind.bind, Except.bind] using hfold) j hj
          intro j' hj'
          rcases (mem_sadd acc x j').mp hj' with hj' | rfl
          · exact hacc j' hj'
          · exact ⟨data, hread, hsha⟩
        · rw [if_neg hsha] at hfold; simp [Bind.bind, Except.bind] at hfold

/-- Witness for C5 (amended): a disk whose piece 0 reads back empty passes
`_verify_all_pieces` against the empty-string digest, and the resulting
held piece indeed hash-matches. -/
theorem C5_seed_have_population_witness :
    ∃ bytes, diskEmpty 0 = some bytes
      ∧ sha1_hash bytes = tEmptyPiece.pieceHashes.getD 0 [] :=
  C5_seed_have_population.2 tEmptyPiece diskEmpty [0] (by rfl) 0 (by decide)

/-- C1 (counterexample): a syntactically valid torrent file whose info
dictionary is stored with keys out of canonical order loads successfully,
yet the exposed info-hash — SHA-1 of `bencodepy.encode(self.info)`, which
re-sorts the keys — differs from the SHA-1 of the raw byte slice of the
info dictionary as it appears in the file. -/
theorem C1_info_hash_reencodes :
    torrent_loads xNonCanonical = true
  ∧ torrent_info_hash xNonCanonical ≠ (rawInfoSlice xNonCanonical).map sha1_hash := by decide

/-! ## Round-trip lemmas for the bencode codec

These culminate in C1's amended theorem: decoding inverts canonical
encoding, so for a canonically-encoded source file the raw info slice is
exactly the re-encoding the client hashes. -/

theorem isDigitB_iff (d : Nat) : isDigitB d = true ↔ 48 ≤ d ∧ d ≤ 57 := by
  simp [isDigitB, Bool.and_eq_true, decide_eq_true_eq]

theorem natToDigitsAux_digits (fuel n : Nat) (h : n < fuel) :
    ∀ d ∈ natToDigitsAux fuel n, isDigitB d = true := by
  induction fuel generalizing n with
  | zero => omega
  | succ fuel ih =>
    intro d hd
    unfold natToDigitsAux at hd
    by_cases h10 : n < 10
    · rw [if_pos h10] at hd
      simp only [List.mem_singleton] at hd
      subst hd
      rw [isDigitB_iff]
      omega
    · rw [if_neg h10] at hd
      rcases List.mem_append.mp hd with hd | hd
      · exact ih (n / 10) (by omega) d hd
      · simp only [List.mem_singleton] at hd
        subst hd
        rw [isDigitB_iff]
        omega

theorem natToDigitsAux_ne_nil (fuel n : Nat) (h : n < fuel) :
    natToDigitsAux fuel n ≠ [] := by
  cases fuel with
  | zero => omega
  | succ fuel =>
    unfold natToDigitsAux
    by_cases h10 : n < 10
    · rw [if_pos h10]; simp
    · rw [if_neg h10]; simp

theorem headD_append_of_ne_nil (ds l : Bytes) (h : ds ≠ []) :
    (ds ++ l).headD 0 = ds.headD 0 := by
  cases ds with
  | nil => exact absurd rfl h
  | cons d tail => rfl

theorem natToDigitsAux_head (fuel n : Nat) (h : n < fuel) (hn : n ≠ 0) :
    (natToDigitsAux fuel n).headD 0 ≠ 48 := by
  induction fuel generalizing n with
  | zero => omega
  | succ fuel ih =>
    unfold natToDigitsAux
    by_cases h10 : n < 10
    · rw [if_pos h10]
      simp only [List.headD_cons]
      omega
    · rw [if_neg h10]
      rw [headD_append_of_ne_nil _ _ (natToDigitsAux_ne_nil fuel (n / 10) (by omega))]
      exact ih (n / 10) (by omega) (by omega)

theorem digitsToNat_append (ds : Bytes) (d : Nat) :
    digitsToNat (ds ++ [d]) = 10 * digitsToNat ds + (d - 48) := by
  unfold digitsToNat
  rw [List.foldl_append]
  simp [Nat.mul_comm]

theorem digitsToNat_natToDigitsAux (fuel n : Nat) (h : n < fuel) :
    digitsToNat (natToDigitsAux fuel n) = n := by
  induction fuel generalizing n with
  | zero => omega
  | succ fuel ih =>
    unfold natToDigitsAux
    by_cases h10 : n < 10
    · rw [if_pos h10]
      simp only [digitsToNat, List.foldl_cons, List.foldl_nil]
      omega
    · rw [if_neg h10, digitsToNat_append, ih (n / 10) (by omega)]
      omega

theorem natToDigits_digits (n : Nat) : ∀ d ∈ natToDigits n, isDigitB d = true :=
  natToDigitsAux_digits (n + 1) n (Nat.lt_succ_self n)

theorem natToDigits_ne_nil (n : Nat) : natToDigits n ≠ [] :=
  natToDigitsAux_ne_nil (n + 1) n (Nat.lt_succ_self n)

theorem digitsToNat_natToDigits (n : Nat) : digitsToNat (natToDigits n) = n :=
  digitsToNat_natToDigitsAux (n + 1) n (Nat.lt_succ_self n)

theorem natToDigits_head (n : Nat) (hn : n ≠ 0) : (natToDigits n).headD 0 ≠ 48 :=
  natToDigitsAux_head (n + 1) n (Nat.lt_succ_self n) hn

theorem natToDigits_zero : natToDigits 0 = [48] := rfl

theorem takeDigits_span (ds r : Bytes) (hds : ∀ d ∈ ds, isDigitB d = true)
    (hr : ∀ b ∈ r.head?, isDigitB b = false) :
    takeDigits (ds ++ r) = (ds, r) := by
  induction ds with
  | nil =>
    cases r with
    | nil => rfl
    | cons b tail =>
      have hb : isDigitB b = false := hr b rfl
      simp [takeDigits, hb]
  | cons d tail ih =>
    have hd : isDigitB d = true := hds d (List.mem_cons_self d tail)
    have ih' := ih (fun d' hd' => hds d' (List.mem_cons_of_mem d hd'))
    simp [takeDigits, hd, ih']

theorem headD_mem (l : Bytes) (h : l ≠ []) : l.headD 0 ∈ l := by
  cases l with
  | nil => exact absurd rfl h
  | cons b tail => exact List.mem_cons_self b tail

theorem parseStrTok_enc (s rest : Bytes) :
    parseStrTok (encStrBytes s ++ rest) = some (s, rest) := by
  have h58 : ∀ b ∈ (58 :: (s ++ rest) : Bytes).head?, isDigitB b = false := by
    intro b hb
    simp only [List.head?_cons, Option.mem_def, Option.some.injEq] at hb
    subst hb
    decide
  have hne : natToDigits s.length ≠ [] := natToDigits_ne_nil _
  have hlead : ¬((natToDigits s.length).headD 0 = 48 ∧ (natToDigits s.length).length ≠ 1) := by
    rintro ⟨hh, hl⟩
    by_cases h0 : s.length = 0
    · rw [h0, natToDigits_zero] at hl
      exact hl rfl
    · exact natToDigits_head _ h0 hh
  have hspan := takeDigits_span (natToDigits s.length) (58 :: (s ++ rest))
    (natToDigits_digits s.length) h58
  have hassoc : encStrBytes s ++ rest = natToDigits s.length ++ (58 :: (s ++ rest)) := by
    simp [encStrBytes]
  rw [hassoc]
  simp only [parseStrTok, hspan, if_neg hne, if_neg hlead, digitsToNat_natToDigits]
  rw [if_pos (by simp : s.length ≤ (s ++ rest).length)]
  rw [List.take_left, List.drop_left]

theorem parseIntTok_enc (n : Int) (rest : Bytes) :
    parseIntTok (intToDigits n ++ 101 :: rest) = some (n, rest) := by
  by_cases hneg : n < 0
  · have h101 : ∀ b ∈ (101 :: rest : Bytes).head?, isDigitB b = false := by
      intro b hb
      simp only [List.head?_cons, Option.mem_def, Option.some.injEq] at hb
      subst hb
      decide
    have htn : (-n).toNat ≠ 0 := by omega
    have hspan := takeDigits_span (natToDigits (-n).toNat) (101 :: rest)
      (natToDigits_digits _) h101
    have hcond : ¬(natToDigits (-n).toNat = [] ∨ (natToDigits (-n).toNat).headD 0 = 48) := by
      rintro (h | h)
      · exact natToDigits_ne_nil _ h
      · exact natToDigits_head _ htn h
    unfold intToDigits
    rw [if_pos hneg]
    show parseIntTok (45 :: (natToDigits (-n).toNat ++ 101 :: rest)) = some (n, rest)
    simp only [parseIntTok, hspan, if_neg hcond, digitsToNat_natToDigits]
    congr 1
    rw [Prod.mk.injEq]
    refine ⟨?_, rfl⟩
    omega
  · have h101 : ∀ b ∈ (101 :: rest : Bytes).head?, isDigitB b = false := by
      intro b hb
      simp only [List.head?_cons, Option.mem_def, Option.some.injEq] at hb
      subst hb
      decide
    have hspan := takeDigits_span (natToDigits n.toNat) (101 :: rest)
      (natToDigits_digits _) h101
    have hcond : ¬(natToDigits n.toNat = []
        ∨ ((natToDigits n.toNat).headD 0 = 48 ∧ (natToDigits n.toNat).length ≠ 1)) := by
      rintro (h | ⟨hh, hl⟩)
      · exact natToDigits_ne_nil _ h
      · by_cases h0 : n.toNat = 0
        · rw [h0, natToDigits_zero] at hl
          exact hl rfl
        · exact natToDigits_head _ h0 hh
    unfold intToDigits
    rw [if_neg hneg]
    unfold parseIntTok
    split
    · rename_i r heq
      exfalso
      have hmem := natToDigits_digits n.toNat ((natToDigits n.toNat).headD 0)
        (headD_mem _ (natToDigits_ne_nil _))
      rw [isDigitB_iff] at hmem
      have h45 : (natToDigits n.toNat ++ 101 :: rest).headD 0 = 45 := by
        rw [heq]
        rfl
      rw [headD_append_of_ne_nil _ _ (natToDigits_ne_nil _)] at h45
      omega
    · simp only [hspan, if_neg hcond, digitsToNat_natToDigits]
      congr 1
      rw [Prod.mk.injEq]
      refine ⟨?_, rfl⟩
      omega

theorem bytesLt_irrefl : ∀ a : Bytes, bytesLt a a = false
  | [] => rfl
  | x :: xs => by
    simp only [bytesLt, Nat.lt_irrefl, if_false]
    exact bytesLt_irrefl xs

theorem bytesLt_asymm : ∀ a b : Bytes, bytesLt a b = true → bytesLt b a = false
  | [], [], h => by simp [bytesLt] at h
  | [], _ :: _, _ => rfl
  | _ :: _, [], h => by simp [bytesLt] at h
  | x :: xs, y :: ys, h => by
    simp only [bytesLt] at h ⊢
    rcases Nat.lt_trichotomy x y with hxy | hxy | hxy
    · rw [if_neg (by omega), if_pos hxy]
    · subst hxy
      simp only [Nat.lt_irrefl, if_false] at h ⊢
      exact bytesLt_asymm xs ys h
    · rw [if_neg (show ¬ x < y by omega), if_pos hxy] at h
      simp at h

theorem bytesLt_trans : ∀ a b c : Bytes,
    bytesLt a b = true → bytesLt b c = true → bytesLt a c = true
  | [], [], _, h, _ => by simp [bytesLt] at h
  | [], _ :: _, [], _, h => by simp [bytesLt] at h
  | [], _ :: _, _ :: _, _, _ => rfl
  | _ :: _, [], _, h, _ => by simp [bytesLt] at h
  | _ :: _, _ :: _, [], _, h => by simp [bytesLt] at h
  | x :: xs, y :: ys, z :: zs, h1, h2 => by
    simp only [bytesLt] at h1 h2 ⊢
    rcases Nat.lt_trichotomy x y with hxy | hxy | hxy
    · rcases Nat.lt_trichotomy y z with hyz | hyz | hyz
      · rw [if_pos (by omega)]
      · subst hyz
        rw [if_pos hxy]
      · rw [if_neg (show ¬ y < z by omega), if_pos hyz] at h2
        simp at h2
    · subst hxy
      rcases Nat.lt_trichotomy x z with hyz | hyz | hyz
      · rw [if_pos hyz]
      · subst hyz
        simp only [Nat.lt_irrefl, if_false] at h1 h2 ⊢
        exact bytesLt_trans xs ys zs h1 h2
      · rw [if_neg (show ¬ x < z by omega), if_pos hyz] at h2
        simp at h2
    · rw [if_neg (show ¬ x < y by omega), if_pos hxy] at h1
      simp at h1

theorem keysSortedStrict_tail (a : Bytes) (l : List Bytes)
    (h : keysSortedStrict (a :: l) = true) : keysSortedStrict l = true := by
  cases l with
  | nil => rfl
  | cons b rest =>
    simp only [keysSortedStrict, Bool.and_eq_true] at h
    exact h.2

theorem keysSortedStrict_head_lt (a : Bytes) (l : List Bytes)
    (h : keysSortedStrict (a :: l) = true) : ∀ b ∈ l, bytesLt a b = true := by
  induction l generalizing a with
  | nil => intro b hb; cases hb
  | cons c rest ih =>
    intro b hb
    simp only [keysSortedStrict, Bool.and_eq_true] at h
    rcases List.mem_cons.mp hb with rfl | hb
    · exact h.1
    · exact bytesLt_trans a c b h.1 (ih c h.2 b hb)

theorem sortPairs_eq_self (l : List (Bytes × Bytes))
    (h : keysSortedStrict (l.map Prod.fst) = true) : sortPairs l = l := by
  induction l with
  | nil => rfl
  | cons p rest ih =>
    have htail : keysSortedStrict (rest.map Prod.fst) = true :=
      keysSortedStrict_tail _ _ (by simpa using h)
    simp only [sortPairs, ih htail]
    cases rest with
    | nil => rfl
    | cons q rest' =>
      have hlt : bytesLt p.1 q.1 = true := by
        refine keysSortedStrict_head_lt p.1 ((q :: rest').map Prod.fst) (by simpa using h) q.1 ?_
        simp
      have hle : bytesLe p.1 q.1 = true := by
        unfold bytesLe
        rw [bytesLt_asymm _ _ hlt]
        rfl
      simp [insertPair, hle]

theorem bencPairs_keys (kvs : List (Bytes × Bencode)) :
    (bencPairs kvs).map Prod.fst = kvs.map Prod.fst := by
  induction kvs with
  | nil => rfl
  | cons p rest ih =>
    cases p with
    | mk k v => simp [bencPairs, ih]

theorem encStrBytes_head_digit (s : Bytes) :
    ∃ b tail, encStrBytes s = b :: tail ∧ isDigitB b = true := by
  cases hds : natToDigits s.length with
  | nil => exact absurd hds (natToDigits_ne_nil _)
  | cons d tail =>
    refine ⟨d, tail ++ 58 :: s, ?_, ?_⟩
    · simp [encStrBytes, hds]
    · have : d ∈ natToDigits s.length := by rw [hds]; exact List.mem_cons_self d tail
      exact natToDigits_digits s.length d this

theorem benc_head_ne_e (v : Bencode) : ∃ b tail, benc v = b :: tail ∧ b ≠ 101 := by
  cases v with
  | int n => exact ⟨105, intToDigits n ++ [101], by simp [benc], by decide⟩
  | str s =>
    obtain ⟨b, tail, hb, hd⟩ := encStrBytes_head_digit s
    rw [isDigitB_iff] at hd
    refine ⟨b, tail, ?_, by omega⟩
    simp only [benc]
    exact hb
  | list xs => exact ⟨108, bencItems xs ++ [101], by simp [benc], by decide⟩
  | dict kvs =>
    exact ⟨100, bencSorted (sortPairs (bencPairs kvs)) ++ [101], by simp [benc], by decide⟩

theorem benc_length_pos (v : Bencode) : 1 ≤ (benc v).length := by
  obtain ⟨b, tail, hb, _⟩ := benc_head_ne_e v
  rw [hb]
  simp

theorem encStrBytes_length_pos (s : Bytes) : 1 ≤ (encStrBytes s).length := by
  obtain ⟨b, tail, hb, _⟩ := encStrBytes_head_digit s
  rw [hb]
  simp

mutual

theorem bdecodeV_benc : ∀ (v : Bencode) (rest : Bytes) (fuel : Nat),
    validB v = true → (benc v).length + 1 ≤ fuel →
    bdecodeV fuel (benc v ++ rest) = some (v, rest)
  | _, _, 0, _, hf => by omega
  | .int n, rest, fuel + 1, hv, hf => by
    have henc : benc (.int n) ++ rest = 105 :: (intToDigits n ++ 101 :: rest) := by
      simp [benc]
    rw [henc]
    simp only [bdecodeV, parseIntTok_enc, Option.map_some']
  | .str s, rest, fuel + 1, hv, hf => by
    obtain ⟨b, tail, hb, hd⟩ := encStrBytes_head_digit s
    rw [isDigitB_iff] at hd
    have henc : benc (.str s) ++ rest = b :: (tail ++ rest) := by
      simp [benc, hb]
    rw [henc]
    unfold bdecodeV
    split
    · rename_i heq
      exfalso
      have : b = 105 := (List.cons.injEq _ _ _ _).mp heq |>.1
      omega
    · rename_i heq
      exfalso
      have : b = 108 := (List.cons.injEq _ _ _ _).mp heq |>.1
      omega
    · rename_i heq
      exfalso
      have : b = 100 := (List.cons.injEq _ _ _ _).mp heq |>.1
      omega
    · have hback : b :: (tail ++ rest) = encStrBytes s ++ rest := by
        rw [hb]
        rfl
      rw [hback, parseStrTok_enc]
      rfl
  | .list xs, rest, fuel + 1, hv, hf => by
    have henc : benc (.list xs) ++ rest = 108 :: (bencItems xs ++ 101 :: rest) := by
      simp [benc]
    rw [henc]
    simp only [bdecodeV]
    have hlen : (bencItems xs).length + 2 ≤ fuel := by
      simp only [benc, List.length_cons, List.length_append, List.length_singleton] at hf
      omega
    rw [bdecodeItems_benc xs rest fuel (by simpa [validB] using hv) hlen]
    rfl
  | .dict kvs, rest, fuel + 1, hv, hf => by
    have hv' := hv
    simp only [validB, Bool.and_eq_true] at hv'
    obtain ⟨hsort, hvals⟩ := hv'
    have hsp : sortPairs (bencPairs kvs) = bencPairs kvs :=
      sortPairs_eq_self _ (by rw [bencPairs_keys]; exact hsort)
    have henc : benc (.dict kvs) ++ rest
        = 100 :: (bencSorted (bencPairs kvs) ++ 101 :: rest) := by
      simp [benc, hsp]
    rw [henc]
    simp only [bdecodeV]
    have hlen : (bencSorted (bencPairs kvs)).length + 2 ≤ fuel := by
      simp only [benc, hsp, List.length_cons, List.length_append, List.length_singleton] at hf
      omega
    rw [bdecodePairs_benc kvs rest fuel hvals hlen]
    rfl

theorem bdecodeItems_benc : ∀ (xs : List Bencode) (rest : Bytes) (fuel : Nat),
    validItems xs = true → (bencItems xs).length + 2 ≤ fuel →
    bdecodeItems fuel (bencItems xs ++ 101 :: rest) = some (xs, rest)
  | _, _, 0, _, hf => by omega
  | [], rest, fuel + 1, hv, hf => by
    simp [bencItems, bdecodeItems]
  | x :: xs, rest, fuel + 1, hv, hf => by
    simp only [validItems, Bool.and_eq_true] at hv
    have hflen : (benc x).length + (bencItems xs).length + 2 ≤ fuel + 1 := by
      simp only [bencItems, List.length_append] at hf
      omega
    have hxpos := benc_length_pos x
    have henc : bencItems (x :: xs) ++ 101 :: rest
        = benc x ++ (bencItems xs ++ 101 :: rest) := by
      simp [bencItems]
    rw [henc]
    obtain ⟨b, tail, hb, hbe⟩ := benc_head_ne_e x
    unfold bdecodeItems
    split
    · rename_i heq
      exfalso
      rw [hb] at heq
      have : b = 101 := (List.cons.injEq _ _ _ _).mp (by simpa using heq) |>.1
      exact hbe this
    · rw [bdecodeV_benc x (bencItems xs ++ 101 :: rest) fuel hv.1 (by omega)]
      dsimp only
      rw [bdecodeItems_benc xs rest fuel hv.2 (by omega)]

theorem bdecodePairs_benc : ∀ (kvs : List (Bytes × Bencode)) (rest : Bytes) (fuel : Nat),
    validPairs kvs = true → (bencSorted (bencPairs kvs)).length + 2 ≤ fuel →
    bdecodePairs fuel (bencSorted (bencPairs kvs) ++ 101 :: rest) = some (kvs, rest)
  | _, _, 0, _, hf => by omega
  | [], rest, fuel + 1, hv, hf => by
    simp [bencPairs, bencSorted, bdecodePairs]
  | (k, v) :: kvs, rest, fuel + 1, hv, hf => by
    simp only [validPairs, Bool.and_eq_true] at hv
    have hflen : (encStrBytes k).length + (benc v).length
        + (bencSorted (bencPairs kvs)).length + 2 ≤ fuel + 1 := by
      simp only [bencPairs, bencSorted, List.length_append] at hf
      omega
    have hkpos := encStrBytes_length_pos k
    have hvpos := benc_length_pos v
    have henc : bencSorted (bencPairs ((k, v) :: kvs)) ++ 101 :: rest
        = encStrBytes k ++ (benc v ++ (bencSorted (bencPairs kvs) ++ 101 :: rest)) := by
      simp [bencPairs, bencSorted]
    rw [henc]
    obtain ⟨b, tail, hb, hd⟩ := encStrBytes_head_digit k
    rw [isDigitB_iff] at hd
    unfold bdecodePairs
    split
    · rename_i heq
      exfalso
      rw [hb] at heq
      have : b = 101 := (List.cons.injEq _ _ _ _).mp (by simpa using heq) |>.1
      omega
    · rw [parseStrTok_enc]
      dsimp only
      rw [bdecodeV_benc v (bencSorted (bencPairs kvs) ++ 101 :: rest) fuel hv.1 (by omega)]
      dsimp only
      rw [bdecodePairs_benc kvs rest fuel hv.2 (by omega)]

end

theorem blookup_eq_none (k : Bytes) (kvs : List (Bytes × Bencode))
    (h : ∀ p ∈ kvs, p.1 ≠ k) : blookup k kvs = none := by
  induction kvs with
  | nil => rfl
  | cons p rest ih =>
    cases p with
    | mk k' v =>
      have hne : k' ≠ k := h (k', v) (List.mem_cons_self _ _)
      have hrest := ih (fun q hq => h q (List.mem_cons_of_mem _ hq))
      simp [blookup, hrest, hne]

theorem blookup_eq_firstLookup (k : Bytes) (kvs : List (Bytes × Bencode))
    (hsort : keysSortedStrict (kvs.map Prod.fst) = true) :
    blookup k kvs = firstLookup k kvs := by
  induction kvs with
  | nil => rfl
  | cons p rest ih =>
    cases p with
    | mk k' v =>
      have htail : keysSortedStrict (rest.map Prod.fst) = true :=
        keysSortedStrict_tail _ _ (by simpa using hsort)
      by_cases hk : k' = k
      · subst hk
        have hnone : blookup k' rest = none := by
          refine blookup_eq_none _ _ (fun q hq => ?_)
          intro hqk
          have hlt : bytesLt k' q.1 = true := by
            refine keysSortedStrict_head_lt k' (rest.map Prod.fst) (by simpa using hsort)
              q.1 ?_
            exact List.mem_map_of_mem Prod.fst hq
          rw [hqk] at hlt
          rw [bytesLt_irrefl] at hlt
          exact Bool.false_ne_true hlt
        simp [blookup, firstLookup, hnone]
      · cases hfl : firstLookup k rest with
        | none =>
          have := ih htail
          rw [hfl] at this
          simp [blookup, firstLookup, this, hk, hfl]
        | some r =>
          have := ih htail
          rw [hfl] at this
          simp [blookup, firstLookup, this, hk, hfl]

theorem findInfoSlice_benc : ∀ (kvs : List (Bytes × Bencode)) (rest : Bytes) (fuel : Nat),
    validPairs kvs = true → (bencSorted (bencPairs kvs)).length + 2 ≤ fuel →
    findInfoSlice fuel (bencSorted (bencPairs kvs) ++ 101 :: rest)
      = (firstLookup infoKey kvs).map benc
  | _, _, 0, _, hf => by omega
  | [], rest, fuel + 1, hv, hf => by
    simp [bencPairs, bencSorted, findInfoSlice, firstLookup]
  | (k, v) :: kvs, rest, fuel + 1, hv, hf => by
    simp only [validPairs, Bool.and_eq_true] at hv
    have hflen : (encStrBytes k).length + (benc v).length
        + (bencSorted (bencPairs kvs)).length + 2 ≤ fuel + 1 := by
      simp only [bencPairs, bencSorted, List.length_append] at hf
      omega
    have hkpos := encStrBytes_length_pos k
    have hvpos := benc_length_pos v
    have henc : bencSorted (bencPairs ((k, v) :: kvs)) ++ 101 :: rest
        = encStrBytes k ++ (benc v ++ (bencSorted (bencPairs kvs) ++ 101 :: rest)) := by
      simp [bencPairs, bencSorted]
    rw [henc]
    obtain ⟨b, tail, hb, hd⟩ := encStrBytes_head_digit k
    rw [isDigitB_iff] at hd
    unfold findInfoSlice
    split
    · rename_i heq
      exfalso
      rw [hb] at heq
      have : b = 101 := (List.cons.injEq _ _ _ _).mp (by simpa using heq) |>.1
      omega
    · rw [parseStrTok_enc]
      dsimp only
      rw [bdecodeV_benc v (bencSorted (bencPairs kvs) ++ 101 :: rest) (fuel + 1) hv.1
        (by omega)]
      dsimp only
      have hconsumed : (benc v ++ (bencSorted (bencPairs kvs) ++ 101 :: rest)).length
          - (bencSorted (bencPairs kvs) ++ 101 :: rest).length = (benc v).length := by
        simp [List.length_append]
      rw [hconsumed, List.take_left]
      by_cases hk : k = infoKey
      · rw [if_pos hk]
        simp [firstLookup, hk]
      · rw [if_neg hk]
        rw [findInfoSlice_benc kvs rest fuel hv.2 (by omega)]
        simp [firstLookup, hk]

/-- C1 (amended): for every torrent byte string that is the canonical
encoding of its value — dictionary keys strictly sorted at every level, as
canonical encoders produce — the exposed info-hash (SHA-1 of the
re-encoded parsed info value) equals the SHA-1 of the raw byte slice of
the info dictionary; the two coincide exactly because decoding inverts
canonical encoding. -/
theorem C1_info_hash_of_canonical (kvs : List (Bytes × Bencode)) (vInfo : Bencode)
    (hvalid : validB (.dict kvs) = true)
    (hinfo : blookup infoKey kvs = some vInfo) :
    torrent_info_hash (benc (.dict kvs)) = (rawInfoSlice (benc (.dict kvs))).map sha1_hash := by
  have hvalid' := hvalid
  simp only [validB, Bool.and_eq_true] at hvalid'
  obtain ⟨hsort, hvals⟩ := hvalid'
  have hsp : sortPairs (bencPairs kvs) = bencPairs kvs :=
    sortPairs_eq_self _ (by rw [bencPairs_keys]; exact hsort)
  have hdec : bdecodeTop (benc (.dict kvs)) = some (.dict kvs) := by
    unfold bdecodeTop
    have hrt := bdecodeV_benc (.dict kvs) [] ((benc (.dict kvs)).length + 1) hvalid
      (le_refl _)
    rw [List.append_nil] at hrt
    rw [hrt]
  have hinfoV : torrent_info (benc (.dict kvs)) = some vInfo := by
    unfold torrent_info
    rw [hdec]
    exact hinfo
  have hslice : rawInfoSlice (benc (.dict kvs)) = some (benc vInfo) := by
    have hbody : benc (.dict kvs)
        = 100 :: (bencSorted (bencPairs kvs) ++ 101 :: ([] : Bytes)) := by
      simp [benc, hsp]
    rw [hbody]
    unfold rawInfoSlice
    dsimp only
    rw [findInfoSlice_benc kvs [] ((bencSorted (bencPairs kvs) ++ 101 :: ([] : Bytes)).length + 1)
      hvals (by simp [List.length_append])]
    rw [← blookup_eq_firstLookup _ _ hsort, hinfo]
    rfl
  unfold torrent_info_hash
  rw [hinfoV, hslice]
  rfl

/-- Witness for C1 (amended) on a concrete canonical torrent value: a
top-level dictionary holding an empty info dictionary. -/
theorem C1_info_hash_of_canonical_witness :
    torrent_info_hash (benc (.dict kvsCanonical))
      = (rawInfoSlice (benc (.dict kvsCanonical))).map sha1_hash :=
  C1_info_hash_of_canonical kvsCanonical (.dict []) (by decide) (by rfl)

end BitTorrentCli
